import Mathlib

/-!
# Verification of the CIPC wire-format codec

Shallow embedding of the CIPC codec (`src/cipc/serialize.h`,
`src/cipc/serialize.cc`, `src/cipc/msg.h`, `src/cipc/msg.cc`) on a
little-endian host, together with proofs settling the frozen claims
about the natural-language specification.

Modelling conventions:
* A byte is a `Nat`; every read from memory reduces modulo 256
  (C++ memory holds values `0..255`; the reduction makes the model total).
* Memory is a total function `Nat → Nat`.  A C++ buffer is a pointer
  into memory plus a capacity `bufSize`; the bytes past `bufSize` still
  exist (adjacent memory), which is what lets the out-of-bounds reads
  performed by `deserialize<std::string>` be described faithfully.
* `serialize`/`deserialize` return a byte count, with `0` meaning
  failure.  Encoders are modelled as `Option (List Nat)`: `some bs`
  means "returned `bs.length` after writing `bs` at the cursor", `none`
  means "returned 0 having written nothing" (on every encoder path the
  capacity check precedes any write).  Decoders return `DResult`:
  `Except.ok (v, n)` means "returned count `n > 0` with `v` stored in
  the out-parameter"; `Except.error .zero` means "returned 0";
  `Except.error .uninit` marks the one path (`deserialize<std::string>`
  with `buf_size < 4`) that reads an uninitialized variable (undefined
  behaviour in the source).
* `std::size_t` is modelled as `Nat`.  The running-capacity subtraction
  `buf_size -= n` is Nat subtraction; the source can wrap `size_t`
  there only after `deserialize<std::string>` has already reported
  consuming more than the capacity, and no theorem below depends on
  behaviour past that point.
-/

namespace Cipc

/-- Byte memory: the model of a C `const void*` — a total map from byte
offsets to byte values. -/
def Mem : Type := Nat → Nat

/-- Advance a memory pointer by `k` bytes (C pointer arithmetic
`buf + k`). -/
def Mem.shift (m : Mem) (k : Nat) : Mem := fun i => m (i + k)

/-- View a finite byte list as memory; bytes past the end of the list
read as zero. -/
def memOfList (l : List Nat) : Mem := fun i => l.getD i 0

/-- Read one byte from memory.  C++ memory holds `0..255`; modelled
Nats are reduced modulo 256 on every read. -/
def readByte (m : Mem) (i : Nat) : Nat := m i % 256

/-- Little-endian read of `w` bytes, as done by `memcpy` into an
unsigned integer followed by `le_to_host` on a little-endian host. -/
def readLE (m : Mem) : Nat → Nat
  | 0 => 0
  | w + 1 => readByte m 0 + 256 * readLE (m.shift 1) w

/-- Little-endian bytes of `n`, `w` bytes wide: the bytes `memcpy`
copies out of `host_to_le(n)` on a little-endian host.  Only the low
`w` bytes of `n` are kept, matching the width of the unsigned type. -/
def leBytes : Nat → Nat → List Nat
  | 0, _ => []
  | w + 1, n => n % 256 :: leBytes w (n / 256)

/-- Copy `n` bytes starting at memory `m` into a list (the `memcpy` /
`std::string(start, start + len)` read direction). -/
def readBytes (m : Mem) (n : Nat) : List Nat :=
  (List.range n).map (readByte m)

@[simp] theorem leBytes_length (w n : Nat) : (leBytes w n).length = w := by
  induction w generalizing n with
  | zero => rfl
  | succ w ih => simp [leBytes, ih]

theorem leBytes_lt (w n : Nat) : ∀ b ∈ leBytes w n, b < 256 := by
  induction w generalizing n with
  | zero => simp [leBytes]
  | succ w ih =>
    intro b hb
    simp only [leBytes, List.mem_cons] at hb
    rcases hb with h | h
    · subst h; exact Nat.mod_lt _ (by norm_num)
    · exact ih _ _ h

/-! ## The supported type universe

`src/cipc/serialize.h` dispatches on the static C++ type: the integer
family (signed and unsigned, 1/2/4/8 bytes), `bool`, `float`/`double`,
`std::string`, the list-like containers (`vector`/`list`/`deque`) and
the map-like containers.  `Ty` is the type index a decoder is told,
`Value` the typed in-memory datum.  Integer values are carried as `Nat`
(unsigned) or `Int` (signed, two's complement on the wire); a float is
carried by the `Nat` bit pattern of its IEEE 754 representation, since
the codec only ever `memcpy`s that representation; a string is its
byte list. -/

inductive Ty : Type where
  | uint (w : Nat)
  | sint (w : Nat)
  | bool
  | float (w : Nat)
  | str
  | seq (t : Ty)
  | map (kt vt : Ty)
deriving DecidableEq

inductive Value : Type where
  | vuint (w : Nat) (n : Nat)
  | vsint (w : Nat) (i : Int)
  | vbool (b : Bool)
  | vfloat (w : Nat) (bits : Nat)
  | vstr (s : List Nat)
  | vseq (xs : List Value)
  | vmap (ps : List (Value × Value))

mutual

/-- `serialized_size`: width for the fixed-size codecs
(`sizeof(T)`), `sizeof(StringSize) + x.size()` for strings, and
`sizeof(CollectionSize)` plus the summed element sizes for the
containers (`serialize.h` lines 185-187, 214-216, 248-250, 292-298,
375-382; `serialize.cc` lines 136-139). -/
def sersize : Value → Nat
  | .vuint w _ => w
  | .vsint w _ => w
  | .vbool _ => 1
  | .vfloat w _ => w
  | .vstr s => 4 + s.length
  | .vseq xs => 4 + sersizeList xs
  | .vmap ps => 4 + sersizePairs ps

def sersizeList : List Value → Nat
  | [] => 0
  | v :: vs => sersize v + sersizeList vs

def sersizePairs : List (Value × Value) → Nat
  | [] => 0
  | (k, v) :: ps => sersize k + sersize v + sersizePairs ps

end

mutual

/-- The bytes an encoder writes when the capacity check passes: the
little-endian unsigned pattern for numbers (`host_to_le` then `memcpy`
on a little-endian host), the raw IEEE bytes for floats, a single
`0`/`1` byte for `bool`, and a 4-byte little-endian truncated length
prefix followed by the payload for strings and containers. -/
def serFlat : Value → List Nat
  | .vuint w n => leBytes w n
  | .vsint w i => leBytes w (i % (2 ^ (8 * w) : Int)).toNat
  | .vbool b => [if b then 1 else 0]
  | .vfloat w bits => leBytes w bits
  | .vstr s => leBytes 4 s.length ++ s.map (· % 256)
  | .vseq xs => leBytes 4 xs.length ++ serFlatList xs
  | .vmap ps => leBytes 4 ps.length ++ serFlatPairs ps

def serFlatList : List Value → List Nat
  | [] => []
  | v :: vs => serFlat v ++ serFlatList vs

def serFlatPairs : List (Value × Value) → List Nat
  | [] => []
  | (k, v) :: ps => serFlat k ++ serFlat v ++ serFlatPairs ps

end

mutual

/-- `serialize(x, buf, buf_size)`, one case per specialization of
`serialize.h`/`serialize.cc`.  `some bs` models "wrote `bs` at the
cursor and returned `bs.length`"; `none` models "returned 0" (each
encoder checks capacity before writing anything).

* integral (`serialize.cc` lines 36-45): `0` if `buf_size <
  sizeof(T)`, else the `host_to_le` bytes;
* bool (`serialize.cc` lines 73-76): delegates to `uint8_t` with
  `static_cast<uint8_t>(x)`;
* float/double (`serialize.cc` lines 94-103): `memcpy` of the native
  IEEE representation — little-endian bytes of the bit pattern here;
* `std::string` (`serialize.cc` lines 123-134): `0` if
  `serialized_size > buf_size`; else a 4-byte prefix holding
  `StringSize len = x.length()` (silently narrowed to 32 bits — the
  `leBytes 4` model keeps only the low 4 bytes) then the payload, and
  the return value is `serialized_size(x)`;
* list-like (`serialize.h` lines 300-328) and map-like (`serialize.h`
  lines 384-423): `0` if `serialized_size > buf_size`, else a 4-byte
  truncated element/pair count followed by each element serialized in
  iteration order against the remaining capacity. -/
def ser : Value → Nat → Option (List Nat)
  | .vuint w n, cap => if cap < w then none else some (leBytes w n)
  | .vsint w i, cap =>
      if cap < w then none else some (leBytes w (i % (2 ^ (8 * w) : Int)).toNat)
  | .vbool b, cap => if cap < 1 then none else some [if b then 1 else 0]
  | .vfloat w bits, cap => if cap < w then none else some (leBytes w bits)
  | .vstr s, cap =>
      if 4 + s.length > cap then none
      else some (leBytes 4 s.length ++ s.map (· % 256))
  | .vseq xs, cap =>
      if 4 + sersizeList xs > cap then none
      else
        match serList xs (cap - 4) with
        | none => none
        | some bs => some (leBytes 4 xs.length ++ bs)
  | .vmap ps, cap =>
      if 4 + sersizePairs ps > cap then none
      else
        match serPairs ps (cap - 4) with
        | none => none
        | some bs => some (leBytes 4 ps.length ++ bs)

def serList : List Value → Nat → Option (List Nat)
  | [], _ => some []
  | v :: vs, cap =>
      match ser v cap with
      | none => none
      | some bs =>
        match serList vs (cap - bs.length) with
        | none => none
        | some rest => some (bs ++ rest)

def serPairs : List (Value × Value) → Nat → Option (List Nat)
  | [], _ => some []
  | (k, v) :: ps, cap =>
      match ser k cap with
      | none => none
      | some kb =>
        match ser v (cap - kb.length) with
        | none => none
        | some vb =>
          match serPairs ps (cap - kb.length - vb.length) with
          | none => none
          | some rest => some (kb ++ vb ++ rest)

end

/-! ## Ordered-map model

`std::map` iterates in strictly increasing key order and
`std::map::insert` inserts at the ordered position, keeping the
existing entry when an equivalent key is present.  The model carries a
map as its iteration list of `(key, value)` entries and uses `keyLt`
— a strict total order comparing the keys' encodings
lexicographically — as the stand-in for the map's `std::less<K>`
comparator (the codec templates accept any comparator; none of the
claims depends on which strict total order the container uses). -/

/-- Lexicographic strict order on byte lists (shorter prefix first). -/
def lexLt : List Nat → List Nat → Bool
  | [], [] => false
  | [], _ :: _ => true
  | _ :: _, [] => false
  | a :: as, b :: bs =>
      if a < b then true else if a = b then lexLt as bs else false

/-- The model's `std::less<K>`: compare the wire encodings. -/
def keyLt (a b : Value) : Bool := lexLt (serFlat a) (serFlat b)

/-- `x->insert(std::make_pair(key, value))` (`serialize.h` line 458)
on the iteration-list model of `std::map`: walk to the ordered
position; if an entry with an equivalent key exists, the insertion is
a no-op. -/
def mapInsert : List (Value × Value) → Value × Value → List (Value × Value)
  | [], p => [p]
  | q :: rest, p =>
      if keyLt p.1 q.1 then p :: q :: rest
      else if keyLt q.1 p.1 then q :: mapInsert rest p
      else q :: rest

/-- The map rebuilt by the decode loop: each decoded pair inserted in
read order, starting from the cleared destination. -/
def mapInsertAll (ps : List (Value × Value)) : List (Value × Value) :=
  ps.foldl mapInsert []

/-! ## Decoders -/

/-- How a modelled `deserialize` call ends when it does not store a
value: `zero` is the reported failure (`return 0` on an insufficient
buffer), `uninit` is the one unreported path in
`deserialize<std::string>` (`serialize.cc` lines 141-149) where the
4-byte length prefix does not fit, the inner `deserialize<StringSize>`
returns 0, and the uninitialized `len` is used anyway (undefined
behaviour). -/
inductive DFail : Type where
  | zero
  | uninit
deriving DecidableEq

/-- Result of a modelled `deserialize` call: `Except.ok (v, n)` is
"stored `v` through the out-parameter and returned byte count `n`". -/
abbrev DResult (α : Type) : Type := Except DFail (α × Nat)

/-- `le_to_host<T>` for signed `T`: reinterpret the unsigned
little-endian pattern as two's complement. -/
def sintOfLE (w n : Nat) : Int :=
  if n < 2 ^ (8 * w - 1) then (n : Int) else (n : Int) - (2 ^ (8 * w) : Int)

theorem Ty.one_le_sizeOf (t : Ty) : 1 ≤ sizeOf t := by
  cases t <;> simp_arith

mutual

/-- `deserialize(x, buf, buf_size)`, one case per specialization:

* integral (`serialize.cc` lines 47-57): 0 if `buf_size < sizeof(T)`,
  else read `sizeof(T)` little-endian bytes;
* bool (`serialize.cc` lines 78-82): delegates to the `uint8_t`
  decoder through a reinterpreted pointer, so the stored boolean is
  exactly the truthiness of the raw byte (the header-template variant,
  `serialize.h` lines 218-226, reaches the same value through
  `static_cast<bool>`);
* float/double (`serialize.cc` lines 105-113): 0 if short, else
  `memcpy` of the IEEE bit pattern;
* `std::string` (`serialize.cc` lines 141-149): reads the 4-byte
  length, then unconditionally builds the string from the next `len`
  bytes and returns `len_size + x->size()` — there is no check that
  the length prefix or the advertised payload fit in `buf_size`; when
  `buf_size < 4` the source uses `len` uninitialized (`.uninit`);
* list-like (`serialize.h` lines 330-358): clear the destination, read
  the element count, then decode elements one at a time, each against
  the remaining capacity, returning 0 as soon as an element decode
  returns 0;
* map-like (`serialize.h` lines 425-461): same loop decoding a key
  then a value per iteration and inserting each decoded pair in read
  order. -/
def deser : Ty → Mem → Nat → DResult Value
  | .uint w, m, cap =>
      if cap < w then .error .zero else .ok (.vuint w (readLE m w), w)
  | .sint w, m, cap =>
      if cap < w then .error .zero
      else .ok (.vsint w (sintOfLE w (readLE m w)), w)
  | .bool, m, cap =>
      if cap < 1 then .error .zero else .ok (.vbool (readByte m 0 != 0), 1)
  | .float w, m, cap =>
      if cap < w then .error .zero else .ok (.vfloat w (readLE m w), w)
  | .str, m, cap =>
      if cap < 4 then .error .uninit
      else .ok (.vstr (readBytes (m.shift 4) (readLE m 4)), 4 + readLE m 4)
  | .seq t, m, cap =>
      if cap < 4 then .error .zero
      else
        match deserItems t (readLE m 4) (m.shift 4) (cap - 4) with
        | .error e => .error e
        | .ok (xs, k) => .ok (.vseq xs, 4 + k)
  | .map kt vt, m, cap =>
      if cap < 4 then .error .zero
      else
        match deserEntries kt vt (readLE m 4) (m.shift 4) (cap - 4) with
        | .error e => .error e
        | .ok (ps, k) => .ok (.vmap (mapInsertAll ps), 4 + k)
termination_by t _ _ => (sizeOf t, 0)
decreasing_by
  all_goals simp_wf
  · apply Prod.Lex.left; simp_arith
  · apply Prod.Lex.left; simp_arith

/-- The `while (n_items > 0)` element loop of the list-like decoder:
yields the pushed-back elements and the bytes consumed after the
count prefix. -/
def deserItems : Ty → Nat → Mem → Nat → DResult (List Value)
  | _, 0, _, _ => .ok ([], 0)
  | t, n + 1, m, cap =>
      match deser t m cap with
      | .error e => .error e
      | .ok (v, k) =>
        match deserItems t n (m.shift k) (cap - k) with
        | .error e => .error e
        | .ok (vs, k2) => .ok (v :: vs, k + k2)
termination_by t n _ _ => (sizeOf t, n + 1)
decreasing_by
  all_goals simp_wf
  · apply Prod.Lex.right; omega
  · apply Prod.Lex.right; omega

/-- The pair loop of the map-like decoder: key then value per
iteration, in read order. -/
def deserEntries : Ty → Ty → Nat → Mem → Nat → DResult (List (Value × Value))
  | _, _, 0, _, _ => .ok ([], 0)
  | kt, vt, n + 1, m, cap =>
      match deser kt m cap with
      | .error e => .error e
      | .ok (k, kn) =>
        match deser vt (m.shift kn) (cap - kn) with
        | .error e => .error e
        | .ok (v, vn) =>
          match deserEntries kt vt n (m.shift (kn + vn)) (cap - kn - vn) with
          | .error e => .error e
          | .ok (ps, k2) => .ok ((k, v) :: ps, kn + vn + k2)
termination_by kt vt n _ _ => (sizeOf kt + sizeOf vt, n + 1)
decreasing_by
  all_goals simp_wf
  · apply Prod.Lex.left
    have := Ty.one_le_sizeOf vt
    omega
  · apply Prod.Lex.left
    have := Ty.one_le_sizeOf kt
    omega
  · apply Prod.Lex.right; omega

end

/-! ## Message framing (`src/cipc/msg.h`, `src/cipc/msg.cc`)

A `Msg` owns `std::vector<uint8_t> data_`, modelled as its byte list.
Layout constants from `msg.cc` lines 32-40: `kHeaderSize = 4`
(preamble, type byte, 2-byte call id), `kTypeOffset = 1`,
`kCallIdOffset = 2`, `kMethodIdOffset = 4`, `kObjectIdOffset = 8`,
`kArgsOffset = 16`, `kRvOffset = 4`, preamble `'C' = 0x43`.

`enum class Msg::Type` has underlying type `int`, so `sizeof(Msg::Type)
= 4`: both `Write(kTypeOffset, Msg::Type::Request)` and
`Write(kTypeOffset, host_to_le(Msg::Type::Response))` copy FOUR bytes
at offset 1 (little-endian `1` resp. `2`); the bytes at offsets 2..4
they clobber are rewritten by the later call-id/method-id writes. -/

/-- `memcpy(&data_[offset], src, size)` on the byte-list model. -/
def overwrite (data : List Nat) (off : Nat) (bs : List Nat) : List Nat :=
  data.take off ++ bs ++ data.drop (off + bs.length)

/-- `Msg::Write(offset, data, size)` (`msg.cc` lines 111-114):
`assert(offset + size < data_.size())` — strict `<` — then `memcpy`.
`none` models the assertion firing (debug-build abort). -/
def msgWrite (data : List Nat) (off : Nat) (bs : List Nat) : Option (List Nat) :=
  if off + bs.length < data.length then some (overwrite data off bs) else none

/-- `Msg::Read<T>(offset)` (`msg.cc` lines 121-127):
`assert(offset + sizeof(T) < data_.size())` then `memcpy` out `w`
bytes, read little-endian. -/
def msgRead (data : List Nat) (off w : Nat) : Option Nat :=
  if off + w < data.length then some (readLE ((memOfList data).shift off) w)
  else none

/-- `Msg::PrepareRequestPrefix` (`msg.cc` lines 55-66): resize to
`kHeaderSize + sizeof(ObjectId) + sizeof(MethodId) + args_size`
(zero-filled), then write preamble, 4-byte type tag `Request = 1`,
call id, method id, object id. -/
def prepareRequestPrefix (call method obj argsSize : Nat) :
    Option (List Nat) := do
  let d0 := List.replicate (4 + 8 + 4 + argsSize) 0
  let d1 ← msgWrite d0 0 [0x43]
  let d2 ← msgWrite d1 1 (leBytes 4 1)
  let d3 ← msgWrite d2 2 (leBytes 2 call)
  let d4 ← msgWrite d3 4 (leBytes 4 method)
  msgWrite d4 8 (leBytes 8 obj)

/-- `Msg::PrepareResponsePrefix` (`msg.cc` lines 68-75): resize to
`kHeaderSize + rv_size`, then write preamble, 4-byte type tag
`host_to_le(Response) = 2`, call id. -/
def prepareResponsePrefix (call rvSize : Nat) : Option (List Nat) := do
  let d0 := List.replicate (4 + rvSize) 0
  let d1 ← msgWrite d0 0 [0x43]
  let d2 ← msgWrite d1 1 (leBytes 4 2)
  msgWrite d2 2 (leBytes 2 call)

/-- `msg_internal::SerializeToVec` (`msg.h` lines 209-221): serialize
each argument at the cursor, advancing by the returned count (a
0-return writes nothing and advances nothing); returns the updated
buffer and the summed count.  The C++ base case is the single-argument
overload; the `[]` case here is reached only for an empty pack, which
the variadic builder cannot produce. -/
def serializeToVec (data : List Nat) (off cap : Nat) :
    List Value → List Nat × Nat
  | [] => (data, 0)
  | v :: vs =>
      match ser v cap with
      | none => serializeToVec data off cap vs
      | some bs =>
          let r :=
            serializeToVec (overwrite data off bs) (off + bs.length)
              (cap - bs.length) vs
          (r.1, bs.length + r.2)

/-- `Msg::BuildRequest` (`msg.h` lines 225-233): sum the argument
sizes (`serialized_size_of_all`), build the prefix, then stream the
arguments into the payload region at `kArgsOffset = 16`.  `none`
models an assertion firing inside the prefix writes. -/
def buildRequest (call method obj : Nat) (args : List Value) :
    Option (List Nat) := do
  let pre ← prepareRequestPrefix call method obj (sersizeList args)
  pure (serializeToVec pre 16 (pre.length - 16) args).1

/-- `Msg::BuildResponse` (`msg.h` lines 235-242): build the response
prefix for `serialized_size(rv)`, then serialize the return value at
`kRvOffset = 4`. -/
def buildResponse (call : Nat) (rv : Value) : Option (List Nat) := do
  let pre ← prepareResponsePrefix call (sersize rv)
  pure (serializeToVec pre 4 (pre.length - 4) [rv]).1

/-- `Msg::preamble()` (`msg.cc` lines 77-79): `Read<Preamble>(0)`. -/
def msgPreamble (d : List Nat) : Option Nat := msgRead d 0 1

/-- `Msg::type()` (`msg.cc` lines 81-83):
`Msg::Type(Read<uint8_t>(kTypeOffset))` — returns the raw second byte,
whatever it is. -/
def msgTypeByte (d : List Nat) : Option Nat := msgRead d 1 1

/-- `Msg::call_id()` (`msg.cc` lines 85-87). -/
def msgCallId (d : List Nat) : Option Nat := msgRead d 2 2

/-- `Msg::method_id()` (`msg.cc` lines 89-92): asserts
`type() == Type::Request`, then `Read<MethodId>(kMethodIdOffset)`. -/
def msgMethodId (d : List Nat) : Option Nat := do
  let t ← msgTypeByte d
  if t = 1 then msgRead d 4 4 else none

/-- `Msg::object_id()` (`msg.cc` lines 94-97): asserts
`type() == Type::Request`, then `return Read<MethodId>(kObjectIdOffset)`
— the source reads only `sizeof(MethodId) = 4` bytes at offset 8 and
widens the `uint32_t` to `ObjectId`. -/
def msgObjectId (d : List Nat) : Option Nat := do
  let t ← msgTypeByte d
  if t = 1 then msgRead d 8 4 else none

/-! ## Parsing a received buffer -/

inductive ParseReason : Type where
  | shortBuffer
  | badPreamble
  | badTypeTag
deriving DecidableEq

inductive ParseResult : Type where
  | ok (data : List Nat)
  | malformed (r : ParseReason)
deriving DecidableEq

/-- `Msg::Msg(const void* data, std::size_t size)` (`msg.cc` lines
52-53): copies the bytes into `data_` unconditionally.  Receiving a
buffer as a message in the source is exactly this constructor — there
is no validation anywhere on the path, so the result is always `ok`;
the `ParseResult` wrapper exists to compare against the spec's
parser. -/
def codeParse (buf : List Nat) : ParseResult := .ok buf

/-- The parser described by the spec (§4.5 state machine, for
comparison with `codeParse`): validate the preamble byte and the type
tag, check the fixed header fits, and only then expose the message. -/
def specParse (buf : List Nat) : ParseResult :=
  if buf.length < 4 then .malformed .shortBuffer
  else if buf.getD 0 0 ≠ 0x43 then .malformed .badPreamble
  else if buf.getD 1 0 ≠ 1 ∧ buf.getD 1 0 ≠ 2 then .malformed .badTypeTag
  else if buf.getD 1 0 = 1 ∧ buf.length < 16 then .malformed .shortBuffer
  else .ok buf

/-! ## Byte-level lemmas -/

/-- `m` holds the bytes of `l` starting at offset 0 (the rest of the
memory is unconstrained). -/
def agrees (m : Mem) (l : List Nat) : Prop :=
  ∀ i, i < l.length → m i = l.getD i 0

theorem agrees_memOfList (l : List Nat) : agrees (memOfList l) l :=
  fun _ _ => rfl

theorem agrees_of_append_left {m : Mem} {a b : List Nat}
    (h : agrees m (a ++ b)) : agrees m a := by
  intro i hi
  have := h i (by simp; omega)
  rwa [List.getD_append _ _ _ _ hi] at this

theorem agrees_of_append_right {m : Mem} {a b : List Nat}
    (h : agrees m (a ++ b)) : agrees (m.shift a.length) b := by
  intro i hi
  have := h (a.length + i) (by simp; omega)
  rw [Mem.shift]
  rw [Nat.add_comm] at this
  rw [List.getD_append_right a b _ _ (by omega)] at this
  simpa using this

theorem Mem.shift_shift (m : Mem) (i j : Nat) :
    (m.shift i).shift j = m.shift (i + j) := by
  funext k
  simp [Mem.shift]
  ring_nf

theorem readLE_lt (m : Mem) (w : Nat) : readLE m w < 256 ^ w := by
  induction w generalizing m with
  | zero => simp [readLE]
  | succ w ih =>
    have h1 : readByte m 0 < 256 := Nat.mod_lt _ (by norm_num)
    have h2 := ih (m.shift 1)
    simp only [readLE, pow_succ]
    calc readByte m 0 + 256 * readLE (m.shift 1) w
        ≤ 255 + 256 * readLE (m.shift 1) w := by omega
      _ < 256 * 256 ^ w := by omega
      _ = 256 ^ w * 256 := by ring

/-- Reading back `w` little-endian bytes of `n` recovers `n` modulo
`256 ^ w`. -/
theorem readLE_agrees {m : Mem} {w n : Nat} (h : agrees m (leBytes w n)) :
    readLE m w = n % 256 ^ w := by
  induction w generalizing m n with
  | zero => simp [readLE, Nat.mod_one]
  | succ w ih =>
    have h0 : m 0 = n % 256 := by
      have := h 0 (by simp)
      simpa [leBytes] using this
    have hs : agrees (m.shift 1) (leBytes w (n / 256)) := by
      intro i hi
      have := h (i + 1) (by simp at hi ⊢; omega)
      simpa [Mem.shift, leBytes] using this
    have hrec := ih hs
    have hmm : n % 256 % 256 = n % 256 := by omega
    simp only [readLE, readByte, h0, hrec, hmm]
    rw [pow_succ, mul_comm (256 ^ w) 256, Nat.mod_mul]

/-- `readLE` only looks at the first `w` bytes: a prefix that extends
`leBytes w n` reads back the same value. -/
theorem readLE_agrees_front {m : Mem} {w n : Nat} {rest : List Nat}
    (h : agrees m (leBytes w n ++ rest)) : readLE m w = n % 256 ^ w :=
  readLE_agrees (agrees_of_append_left h)

theorem readBytes_zero (m : Mem) : readBytes m 0 = [] := rfl

theorem readBytes_succ (m : Mem) (n : Nat) :
    readBytes m (n + 1) = readByte m 0 :: readBytes (m.shift 1) n := by
  simp only [readBytes, List.range_succ_eq_map, List.map_cons, List.map_map]
  congr 1

/-- Reading back the bytes of a stored list recovers it, provided its
entries are genuine byte values. -/
theorem readBytes_agrees {m : Mem} {l : List Nat} (h : agrees m l)
    (hb : ∀ b ∈ l, b < 256) : readBytes m l.length = l := by
  induction l generalizing m with
  | nil => rfl
  | cons x xs ih =>
    have hx : m 0 = x := by
      have := h 0 (by simp)
      simpa using this
    have hs : agrees (m.shift 1) xs := by
      intro i hi
      have := h (i + 1) (by simp; omega)
      simpa [Mem.shift] using this
    have hx256 : x < 256 := hb x (by simp)
    simp only [List.length_cons, readBytes_succ, readByte, hx,
      Nat.mod_eq_of_lt hx256, ih hs (fun b hbm => hb b (by simp [hbm]))]

/-! ## Size and success lemmas for the encoders -/

mutual

theorem serFlat_length : (v : Value) → (serFlat v).length = sersize v
  | .vuint w n => by simp [serFlat, sersize]
  | .vsint w i => by simp [serFlat, sersize]
  | .vbool b => by simp [serFlat, sersize]
  | .vfloat w bits => by simp [serFlat, sersize]
  | .vstr s => by simp [serFlat, sersize]
  | .vseq xs => by simp [serFlat, sersize, serFlatList_length xs]
  | .vmap ps => by simp [serFlat, sersize, serFlatPairs_length ps]

theorem serFlatList_length :
    (xs : List Value) → (serFlatList xs).length = sersizeList xs
  | [] => rfl
  | v :: vs => by
      simp only [serFlatList, sersizeList, List.length_append,
        serFlat_length v, serFlatList_length vs]

theorem serFlatPairs_length :
    (ps : List (Value × Value)) → (serFlatPairs ps).length = sersizePairs ps
  | [] => rfl
  | (k, v) :: ps => by
      simp only [serFlatPairs, sersizePairs, List.length_append,
        serFlat_length k, serFlat_length v, serFlatPairs_length ps]

end

mutual

theorem serFlat_lt : (v : Value) → ∀ b ∈ serFlat v, b < 256
  | .vuint w n => by simpa [serFlat] using leBytes_lt w n
  | .vsint w i => by simpa [serFlat] using leBytes_lt w _
  | .vbool b => by cases b <;> simp [serFlat]
  | .vfloat w bits => by simpa [serFlat] using leBytes_lt w bits
  | .vstr s => by
      intro b hb
      simp only [serFlat, List.mem_append, List.mem_map] at hb
      rcases hb with h | ⟨a, _, rfl⟩
      · exact leBytes_lt _ _ _ h
      · exact Nat.mod_lt _ (by norm_num)
  | .vseq xs => by
      intro b hb
      simp only [serFlat, List.mem_append] at hb
      rcases hb with h | h
      · exact leBytes_lt _ _ _ h
      · exact serFlatList_lt xs b h
  | .vmap ps => by
      intro b hb
      simp only [serFlat, List.mem_append] at hb
      rcases hb with h | h
      · exact leBytes_lt _ _ _ h
      · exact serFlatPairs_lt ps b h

theorem serFlatList_lt : (xs : List Value) → ∀ b ∈ serFlatList xs, b < 256
  | [] => by simp [serFlatList]
  | v :: vs => by
      intro b hb
      simp only [serFlatList, List.mem_append] at hb
      rcases hb with h | h
      · exact serFlat_lt v b h
      · exact serFlatList_lt vs b h

theorem serFlatPairs_lt :
    (ps : List (Value × Value)) → ∀ b ∈ serFlatPairs ps, b < 256
  | [] => by simp [serFlatPairs]
  | (k, v) :: ps => by
      intro b hb
      simp only [serFlatPairs, List.mem_append] at hb
      rcases hb with (h | h) | h
      · exact serFlat_lt k b h
      · exact serFlat_lt v b h
      · exact serFlatPairs_lt ps b h

end

mutual

/-- On a buffer with enough capacity, every encoder succeeds and
writes exactly its flat byte string (hence returns its
`serialized_size`). -/
theorem ser_eq_of_le :
    (v : Value) → (cap : Nat) → sersize v ≤ cap → ser v cap = some (serFlat v)
  | .vuint w n, cap, h => by
      simp only [sersize] at h
      simp [ser, serFlat, Nat.not_lt.mpr h]
  | .vsint w i, cap, h => by
      simp only [sersize] at h
      simp [ser, serFlat, Nat.not_lt.mpr h]
  | .vbool b, cap, h => by
      simp only [sersize] at h
      simp [ser, serFlat, Nat.not_lt.mpr h]
  | .vfloat w bits, cap, h => by
      simp only [sersize] at h
      simp [ser, serFlat, Nat.not_lt.mpr h]
  | .vstr s, cap, h => by
      simp only [sersize] at h
      simp [ser, serFlat, Nat.not_lt.mpr h]
  | .vseq xs, cap, h => by
      simp only [sersize] at h
      have hl := serList_eq_of_le xs (cap - 4) (by omega)
      simp [ser, serFlat, Nat.not_lt.mpr h, hl]
  | .vmap ps, cap, h => by
      simp only [sersize] at h
      have hl := serPairs_eq_of_le ps (cap - 4) (by omega)
      simp [ser, serFlat, Nat.not_lt.mpr h, hl]

theorem serList_eq_of_le :
    (xs : List Value) → (cap : Nat) → sersizeList xs ≤ cap →
      serList xs cap = some (serFlatList xs)
  | [], cap, _ => rfl
  | v :: vs, cap, h => by
      simp only [sersizeList] at h
      have h1 := ser_eq_of_le v cap (by omega)
      have h2 := serList_eq_of_le vs (cap - (serFlat v).length)
        (by rw [serFlat_length v]; omega)
      simp [serList, serFlatList, h1, h2]

theorem serPairs_eq_of_le :
    (ps : List (Value × Value)) → (cap : Nat) → sersizePairs ps ≤ cap →
      serPairs ps cap = some (serFlatPairs ps)
  | [], cap, _ => rfl
  | (k, v) :: ps, cap, h => by
      simp only [sersizePairs] at h
      have h1 := ser_eq_of_le k cap (by omega)
      have h2 := ser_eq_of_le v (cap - (serFlat k).length)
        (by rw [serFlat_length k]; omega)
      have h3 := serPairs_eq_of_le ps
        (cap - (serFlat k).length - (serFlat v).length)
        (by rw [serFlat_length k, serFlat_length v]; omega)
      simp [serPairs, serFlatPairs, h1, h2, h3]

end

/-! ## Well-formed values

`wfV ty v` says the Lean datum `v` is the faithful image of a C++
object of the static type `ty`: widths match, integers fit their
width (unsigned `n < 2^(8w)`; signed two's complement range), float
bit patterns fit, string bytes are bytes, sequence elements are
well-formed at the element type, and a map's iteration list is
strictly increasing under the model comparator — exactly what
`std::map` maintains by construction. -/

/-- All keys of `ps` are strictly greater than `k` under `keyLt`. -/
def keysAllGt (k : Value) (ps : List (Value × Value)) : Bool :=
  ps.all fun q => keyLt k q.1

/-- The entry list is strictly increasing by key (pairwise), as an
`std::map` iteration sequence is. -/
def sortedKeys : List (Value × Value) → Bool
  | [] => true
  | p :: rest => keysAllGt p.1 rest && sortedKeys rest

mutual

def wfV : Ty → Value → Bool
  | .uint w', .vuint w n => w == w' && decide (n < 2 ^ (8 * w))
  | .sint w', .vsint w i =>
      w == w' && decide (0 < w) &&
        decide (-(2 ^ (8 * w - 1) : Int) ≤ i) &&
        decide (i < (2 ^ (8 * w - 1) : Int))
  | .bool, .vbool _ => true
  | .float w', .vfloat w bits => w == w' && decide (bits < 2 ^ (8 * w))
  | .str, .vstr s => s.all fun b => b < 256
  | .seq t, .vseq xs => wfVList t xs
  | .map kt vt, .vmap ps => wfVPairs kt vt ps && sortedKeys ps
  | _, _ => false

def wfVList : Ty → List Value → Bool
  | _, [] => true
  | t, v :: vs => wfV t v && wfVList t vs

def wfVPairs : Ty → Ty → List (Value × Value) → Bool
  | _, _, [] => true
  | kt, vt, (k, v) :: ps => wfV kt k && wfV vt v && wfVPairs kt vt ps

end

mutual

/-- All variable-length constructs inside `v` have fewer than `2^32`
bytes / elements / pairs, so their 32-bit length prefixes are exact. -/
def small : Value → Bool
  | .vuint _ _ => true
  | .vsint _ _ => true
  | .vbool _ => true
  | .vfloat _ _ => true
  | .vstr s => decide (s.length < 2 ^ 32)
  | .vseq xs => decide (xs.length < 2 ^ 32) && smallList xs
  | .vmap ps => decide (ps.length < 2 ^ 32) && smallPairs ps

def smallList : List Value → Bool
  | [] => true
  | v :: vs => small v && smallList vs

def smallPairs : List (Value × Value) → Bool
  | [] => true
  | (k, v) :: ps => small k && small v && smallPairs ps

end

/-! ## Lexicographic-order lemmas for the map comparator -/

theorem lexLt_asymm :
    ∀ {a b : List Nat}, lexLt a b = true → lexLt b a = false := by
  intro a
  induction a with
  | nil => intro b _; cases b <;> simp [lexLt]
  | cons x xs ih =>
    intro b hab
    cases b with
    | nil => simp [lexLt] at hab
    | cons y ys =>
      simp only [lexLt] at hab ⊢
      split at hab
      · split
        · omega
        · split
          · omega
          · rfl
      · split at hab
        · split
          · omega
          · split
            · exact ih hab
            · rfl
        · exact absurd hab (by simp)

/-- Inserting an entry whose key exceeds every key in the map appends
it at the end. -/
theorem mapInsert_append {p : Value × Value} :
    ∀ {acc : List (Value × Value)},
      (∀ q ∈ acc, keyLt q.1 p.1 = true) → mapInsert acc p = acc ++ [p] := by
  intro acc
  induction acc with
  | nil => intro _; rfl
  | cons q rest ih =>
    intro hlt
    have hq : keyLt q.1 p.1 = true := hlt q (by simp)
    have hq2 : keyLt p.1 q.1 = false := lexLt_asymm hq
    simp only [mapInsert, hq, hq2, Bool.false_eq_true, if_false, if_true]
    rw [ih fun r hr => hlt r (by simp [hr])]
    simp

/-- Folding `std::map::insert` over a strictly-sorted entry stream
rebuilds exactly that entry list: the map decode loop is the identity
on what the map encoder emitted. -/
theorem foldl_mapInsert :
    ∀ (ps acc : List (Value × Value)),
      sortedKeys ps = true →
      (∀ q ∈ acc, ∀ r ∈ ps, keyLt q.1 r.1 = true) →
      List.foldl mapInsert acc ps = acc ++ ps := by
  intro ps
  induction ps with
  | nil => intro acc _ _; simp
  | cons p rest ih =>
    intro acc hs hlt
    simp only [sortedKeys, Bool.and_eq_true] at hs
    have h1 : mapInsert acc p = acc ++ [p] :=
      mapInsert_append fun q hq => hlt q hq p (by simp)
    simp only [List.foldl_cons, h1]
    rw [ih (acc ++ [p]) hs.2 ?_]
    · simp
    · intro q hq r hr
      rcases List.mem_append.mp hq with h | h
      · exact hlt q h r (by simp [hr])
      · have : q = p := by simpa using h
        subst this
        have := hs.1
        simp only [keysAllGt, List.all_eq_true] at this
        exact this r hr

theorem mapInsertAll_sorted {ps : List (Value × Value)}
    (h : sortedKeys ps = true) : mapInsertAll ps = ps := by
  simpa using foldl_mapInsert ps [] h (by simp)

/-! ## Round-trip -/

/-- Two's-complement round-trip for the signed codec:
`le_to_host<T>(host_to_le(i))` recovers `i` for every in-range `i`. -/
theorem sintOfLE_roundtrip {w : Nat} {i : Int} (hw : 0 < w)
    (h1 : -(2 ^ (8 * w - 1) : Int) ≤ i) (h2 : i < (2 ^ (8 * w - 1) : Int)) :
    sintOfLE w (i % (2 ^ (8 * w) : Int)).toNat = i := by
  have hcA : ((2 ^ (8 * w - 1) : Nat) : Int) = (2 ^ (8 * w - 1) : Int) := by
    push_cast
    rfl
  have hcB : ((2 ^ (8 * w) : Nat) : Int) = (2 ^ (8 * w) : Int) := by
    push_cast
    rfl
  have hApos : (0 : Int) < 2 ^ (8 * w - 1) := by positivity
  have hN : (2 ^ (8 * w) : Int) = 2 * 2 ^ (8 * w - 1) := by
    rw [← pow_succ']
    congr 1
    omega
  have hval : i % (2 ^ (8 * w) : Int) =
      if 0 ≤ i then i else i + 2 ^ (8 * w) := by
    split
    · exact Int.emod_eq_of_lt (by assumption) (by omega)
    · have he : (i + 2 ^ (8 * w)) % (2 ^ (8 * w) : Int) =
          i % (2 ^ (8 * w) : Int) := by
        have := Int.add_mul_emod_self_left i (2 ^ (8 * w)) 1
        simp only [mul_one] at this
        exact this
      rw [← he]
      exact Int.emod_eq_of_lt (by omega) (by omega)
  simp only [sintOfLE, hval]
  split
  · rw [if_pos (by omega)]
    omega
  · rw [if_neg (by omega)]
    omega

/-- `256 ^ w` is `2 ^ (8 w)`. -/
theorem pow256 (w : Nat) : (256 : Nat) ^ w = 2 ^ (8 * w) := by
  rw [pow_mul]
  norm_num

mutual

/-- Decoding the encoder's output at the declared type recovers the
value and consumes exactly `serialized_size` bytes, for every
well-formed value whose length prefixes are exact. -/
theorem deser_serFlat :
    (v : Value) → (ty : Ty) → wfV ty v = true → small v = true →
    ∀ (m : Mem) (cap : Nat), agrees m (serFlat v) → sersize v ≤ cap →
      deser ty m cap = .ok (v, sersize v)
  | .vuint w n, ty, hwf, _, m, cap, hag, hcap => by
      cases ty <;> simp [wfV] at hwf
      case uint w' =>
        obtain ⟨rfl, hn⟩ := hwf
        have hread : readLE m w = n := by
          rw [readLE_agrees (by simpa [serFlat] using hag)]
          exact Nat.mod_eq_of_lt (by rw [pow256]; omega)
        simp only [sersize] at hcap ⊢
        simp [deser, Nat.not_lt.mpr hcap, hread]
  | .vsint w i, ty, hwf, _, m, cap, hag, hcap => by
      cases ty <;> simp [wfV] at hwf
      case sint w' =>
        obtain ⟨⟨⟨rfl, hw⟩, hlo⟩, hhi⟩ := hwf
        have hlt : (i % (2 ^ (8 * w) : Int)).toNat < 256 ^ w := by
          have hc : ((2 ^ (8 * w) : Nat) : Int) = (2 ^ (8 * w) : Int) := by
            push_cast
            rfl
          have h1 : (0 : Int) < 2 ^ (8 * w) := by positivity
          have h2 := Int.emod_lt_of_pos i h1
          have h3 := Int.emod_nonneg i h1.ne'
          rw [pow256]
          omega
        have hread : readLE m w = (i % (2 ^ (8 * w) : Int)).toNat := by
          rw [readLE_agrees (by simpa [serFlat] using hag)]
          exact Nat.mod_eq_of_lt hlt
        simp only [sersize] at hcap ⊢
        simp [deser, Nat.not_lt.mpr hcap, hread, sintOfLE_roundtrip hw hlo hhi]
  | .vbool b, ty, hwf, _, m, cap, hag, hcap => by
      cases ty <;> simp [wfV] at hwf
      case bool =>
        have h0 : m 0 = if b then 1 else 0 := by
          have := hag 0 (by simp [serFlat])
          simpa [serFlat] using this
        simp only [sersize] at hcap ⊢
        cases b <;>
          simp [deser, Nat.not_lt.mpr hcap, readByte, h0]
  | .vfloat w bits, ty, hwf, _, m, cap, hag, hcap => by
      cases ty <;> simp [wfV] at hwf
      case float w' =>
        obtain ⟨rfl, hb⟩ := hwf
        have hread : readLE m w = bits := by
          rw [readLE_agrees (by simpa [serFlat] using hag)]
          exact Nat.mod_eq_of_lt (by rw [pow256]; omega)
        simp only [sersize] at hcap ⊢
        simp [deser, Nat.not_lt.mpr hcap, hread]
  | .vstr s, ty, hwf, hsm, m, cap, hag, hcap => by
      cases ty <;> simp [wfV] at hwf
      case str =>
        simp only [small, decide_eq_true_eq] at hsm
        have hmap : s.map (· % 256) = s := by
          conv_rhs => rw [← List.map_id s]
          exact List.map_congr_left fun b hb => Nat.mod_eq_of_lt (hwf b hb)
        have hagp : agrees m (leBytes 4 s.length ++ s) := by
          have := hag
          simp only [serFlat, hmap] at this
          exact this
        have hread : readLE m 4 = s.length := by
          rw [readLE_agrees_front hagp]
          exact Nat.mod_eq_of_lt (by norm_num; omega)
        have hrest : agrees (m.shift 4) s := by
          have h := agrees_of_append_right hagp
          simpa using h
        have hbytes : readBytes (m.shift 4) s.length = s :=
          readBytes_agrees hrest hwf
        simp only [sersize] at hcap ⊢
        simp [deser, Nat.not_lt.mpr (by omega : 4 ≤ cap), hread, hbytes]
  | .vseq xs, ty, hwf, hsm, m, cap, hag, hcap => by
      cases ty <;> simp [wfV] at hwf
      case seq t =>
        simp only [small, Bool.and_eq_true, decide_eq_true_eq] at hsm
        have hagp : agrees m (leBytes 4 xs.length ++ serFlatList xs) := by
          simpa [serFlat] using hag
        have hread : readLE m 4 = xs.length := by
          rw [readLE_agrees_front hagp]
          exact Nat.mod_eq_of_lt (by norm_num; omega)
        have hrest : agrees (m.shift 4) (serFlatList xs) := by
          have h := agrees_of_append_right hagp
          simpa using h
        have hcap4 : sersizeList xs ≤ cap - 4 := by
          simp only [sersize] at hcap
          omega
        have hrec := deserItems_serFlat xs t hwf hsm.2 (m.shift 4) (cap - 4)
          hrest hcap4
        simp only [sersize] at hcap ⊢
        simp [deser, Nat.not_lt.mpr (by omega : 4 ≤ cap), hread, hrec]
  | .vmap ps, ty, hwf, hsm, m, cap, hag, hcap => by
      cases ty <;> simp [wfV] at hwf
      case map kt vt =>
        simp only [small, Bool.and_eq_true, decide_eq_true_eq] at hsm
        have hagp : agrees m (leBytes 4 ps.length ++ serFlatPairs ps) := by
          simpa [serFlat] using hag
        have hread : readLE m 4 = ps.length := by
          rw [readLE_agrees_front hagp]
          exact Nat.mod_eq_of_lt (by norm_num; omega)
        have hrest : agrees (m.shift 4) (serFlatPairs ps) := by
          have h := agrees_of_append_right hagp
          simpa using h
        have hcap4 : sersizePairs ps ≤ cap - 4 := by
          simp only [sersize] at hcap
          omega
        have hrec := deserEntries_serFlat ps kt vt hwf.1 hsm.2 (m.shift 4)
          (cap - 4) hrest hcap4
        simp only [sersize] at hcap ⊢
        simp [deser, Nat.not_lt.mpr (by omega : 4 ≤ cap), hread, hrec,
          mapInsertAll_sorted hwf.2]

theorem deserItems_serFlat :
    (xs : List Value) → (t : Ty) → wfVList t xs = true →
    smallList xs = true →
    ∀ (m : Mem) (cap : Nat), agrees m (serFlatList xs) →
      sersizeList xs ≤ cap →
      deserItems t xs.length m cap = .ok (xs, sersizeList xs)
  | [], t, _, _, m, cap, _, _ => by
      simp [deserItems, sersizeList]
  | v :: vs, t, hwf, hsm, m, cap, hag, hcap => by
      simp only [wfVList, Bool.and_eq_true] at hwf
      simp only [smallList, Bool.and_eq_true] at hsm
      have hag' : agrees m (serFlat v ++ serFlatList vs) := by
        simpa [serFlatList] using hag
      have hcapv : sersize v ≤ cap := by
        simp only [sersizeList] at hcap
        omega
      have h1 := deser_serFlat v t hwf.1 hsm.1 m cap
        (agrees_of_append_left hag') hcapv
      have hagrest : agrees (m.shift (sersize v)) (serFlatList vs) := by
        have h := agrees_of_append_right hag'
        rwa [serFlat_length v] at h
      have hcaprest : sersizeList vs ≤ cap - sersize v := by
        simp only [sersizeList] at hcap
        omega
      have h2 := deserItems_serFlat vs t hwf.2 hsm.2 (m.shift (sersize v))
        (cap - sersize v) hagrest hcaprest
      simp [deserItems, h1, h2, sersizeList]

theorem deserEntries_serFlat :
    (ps : List (Value × Value)) → (kt vt : Ty) → wfVPairs kt vt ps = true →
    smallPairs ps = true →
    ∀ (m : Mem) (cap : Nat), agrees m (serFlatPairs ps) →
      sersizePairs ps ≤ cap →
      deserEntries kt vt ps.length m cap = .ok (ps, sersizePairs ps)
  | [], kt, vt, _, _, m, cap, _, _ => by
      simp [deserEntries, sersizePairs]
  | (k, v) :: ps, kt, vt, hwf, hsm, m, cap, hag, hcap => by
      simp only [wfVPairs, Bool.and_eq_true] at hwf
      simp only [smallPairs, Bool.and_eq_true] at hsm
      have hag' : agrees m (serFlat k ++ (serFlat v ++ serFlatPairs ps)) := by
        simpa [serFlatPairs] using hag
      have hcapk : sersize k ≤ cap := by
        simp only [sersizePairs] at hcap
        omega
      have h1 := deser_serFlat k kt hwf.1.1 hsm.1.1 m cap
        (agrees_of_append_left hag') hcapk
      have hagv' : agrees (m.shift (sersize k)) (serFlat v ++ serFlatPairs ps) := by
        have h := agrees_of_append_right hag'
        rwa [serFlat_length k] at h
      have hcapvv : sersize v ≤ cap - sersize k := by
        simp only [sersizePairs] at hcap
        omega
      have h2 := deser_serFlat v vt hwf.1.2 hsm.1.2 (m.shift (sersize k))
        (cap - sersize k) (agrees_of_append_left hagv') hcapvv
      have hagrest : agrees (m.shift (sersize k + sersize v))
          (serFlatPairs ps) := by
        have h := agrees_of_append_right hagv'
        rw [serFlat_length v] at h
        rwa [Mem.shift_shift] at h
      have hcaprest : sersizePairs ps ≤ cap - sersize k - sersize v := by
        simp only [sersizePairs] at hcap
        omega
      have h3 := deserEntries_serFlat ps kt vt hwf.2 hsm.2
        (m.shift (sersize k + sersize v)) (cap - sersize k - sersize v)
        hagrest hcaprest
      simp [deserEntries, h1, h2, h3, sersizePairs]

end

/-! ## Capacity bounds for the decoders -/

/-- Types whose decode path contains no `std::string`: for these every
decoder is bounds-checked. -/
def strFree : Ty → Bool
  | .uint _ => true
  | .sint _ => true
  | .bool => true
  | .float _ => true
  | .str => false
  | .seq t => strFree t
  | .map kt vt => strFree kt && strFree vt

mutual

/-- For a string-free type, a successful decode never reports
consuming more bytes than the capacity it was given (so the
`buf_size -= n_read_bytes` counters in the container loops never
wrap). -/
theorem deser_count_le :
    (ty : Ty) → strFree ty = true → ∀ (m : Mem) (cap : Nat) (v : Value)
      (k : Nat), deser ty m cap = .ok (v, k) → k ≤ cap
  | .uint w, _, m, cap, v, k, h => by
      simp only [deser] at h
      split at h
      · simp at h
      · simp only [Except.ok.injEq, Prod.mk.injEq] at h
        omega
  | .sint w, _, m, cap, v, k, h => by
      simp only [deser] at h
      split at h
      · simp at h
      · simp only [Except.ok.injEq, Prod.mk.injEq] at h
        omega
  | .bool, _, m, cap, v, k, h => by
      simp only [deser] at h
      split at h
      · simp at h
      · simp only [Except.ok.injEq, Prod.mk.injEq] at h
        omega
  | .float w, _, m, cap, v, k, h => by
      simp only [deser] at h
      split at h
      · simp at h
      · simp only [Except.ok.injEq, Prod.mk.injEq] at h
        omega
  | .str, hsf, _, _, _, _, _ => by
      simp [strFree] at hsf
  | .seq t, hsf, m, cap, v, k, h => by
      simp only [strFree] at hsf
      simp only [deser] at h
      split at h
      · simp at h
      · cases hd : deserItems t (readLE m 4) (m.shift 4) (cap - 4) with
        | error e =>
            rw [hd] at h
            simp at h
        | ok p =>
            obtain ⟨xs, kk⟩ := p
            rw [hd] at h
            simp only [Except.ok.injEq, Prod.mk.injEq] at h
            have hb := deserItems_count_le t hsf (readLE m 4) (m.shift 4)
              (cap - 4) xs kk hd
            omega
  | .map kt vt, hsf, m, cap, v, k, h => by
      simp only [strFree, Bool.and_eq_true] at hsf
      simp only [deser] at h
      split at h
      · simp at h
      · cases hd : deserEntries kt vt (readLE m 4) (m.shift 4) (cap - 4) with
        | error e =>
            rw [hd] at h
            simp at h
        | ok p =>
            obtain ⟨ps, kk⟩ := p
            rw [hd] at h
            simp only [Except.ok.injEq, Prod.mk.injEq] at h
            have hb := deserEntries_count_le kt vt hsf.1 hsf.2 (readLE m 4)
              (m.shift 4) (cap - 4) ps kk hd
            omega
termination_by ty _ => (sizeOf ty, 0)
decreasing_by
  all_goals simp_wf
  · apply Prod.Lex.left; simp_arith
  · apply Prod.Lex.left; simp_arith

theorem deserItems_count_le :
    (t : Ty) → strFree t = true → ∀ (n : Nat) (m : Mem) (cap : Nat)
      (xs : List Value) (k : Nat), deserItems t n m cap = .ok (xs, k) →
      k ≤ cap
  | t, _, 0, m, cap, xs, k, h => by
      simp only [deserItems, Except.ok.injEq, Prod.mk.injEq] at h
      omega
  | t, hsf, n + 1, m, cap, xs, k, h => by
      simp only [deserItems] at h
      cases hd : deser t m cap with
      | error e =>
          rw [hd] at h
          simp at h
      | ok p =>
          obtain ⟨v, kv⟩ := p
          rw [hd] at h
          dsimp only at h
          cases hd2 : deserItems t n (m.shift kv) (cap - kv) with
          | error e =>
              rw [hd2] at h
              simp at h
          | ok q =>
              obtain ⟨vs, k2⟩ := q
              rw [hd2] at h
              simp only [Except.ok.injEq, Prod.mk.injEq] at h
              have h1 := deser_count_le t hsf m cap v kv hd
              have h2 := deserItems_count_le t hsf n (m.shift kv) (cap - kv)
                vs k2 hd2
              omega
termination_by t _ n => (sizeOf t, n + 1)
decreasing_by
  all_goals simp_wf
  · apply Prod.Lex.right; omega
  · apply Prod.Lex.right; omega

theorem deserEntries_count_le :
    (kt vt : Ty) → strFree kt = true → strFree vt = true →
    ∀ (n : Nat) (m : Mem) (cap : Nat) (ps : List (Value × Value)) (k : Nat),
      deserEntries kt vt n m cap = .ok (ps, k) → k ≤ cap
  | kt, vt, _, _, 0, m, cap, ps, k, h => by
      simp only [deserEntries, Except.ok.injEq, Prod.mk.injEq] at h
      omega
  | kt, vt, hk, hv, n + 1, m, cap, ps, k, h => by
      simp only [deserEntries] at h
      cases hd : deser kt m cap with
      | error e =>
          rw [hd] at h
          simp at h
      | ok p =>
          obtain ⟨kx, kn⟩ := p
          rw [hd] at h
          dsimp only at h
          cases hd2 : deser vt (m.shift kn) (cap - kn) with
          | error e =>
              rw [hd2] at h
              simp at h
          | ok q =>
              obtain ⟨vx, vn⟩ := q
              rw [hd2] at h
              dsimp only at h
              cases hd3 : deserEntries kt vt n (m.shift (kn + vn))
                  (cap - kn - vn) with
              | error e =>
                  rw [hd3] at h
                  simp at h
              | ok r =>
                  obtain ⟨ps2, k2⟩ := r
                  rw [hd3] at h
                  simp only [Except.ok.injEq, Prod.mk.injEq] at h
                  have h1 := deser_count_le kt hk m cap kx kn hd
                  have h2 := deser_count_le vt hv (m.shift kn) (cap - kn)
                    vx vn hd2
                  have h3 := deserEntries_count_le kt vt hk hv n
                    (m.shift (kn + vn)) (cap - kn - vn) ps2 k2 hd3
                  omega
termination_by kt vt _ _ n => (sizeOf kt + sizeOf vt, n + 1)
decreasing_by
  all_goals simp_wf
  · apply Prod.Lex.left
    have := Ty.one_le_sizeOf vt
    omega
  · apply Prod.Lex.left
    have := Ty.one_le_sizeOf kt
    omega
  · apply Prod.Lex.right; omega

end

/-! ## Claims -/

/-- C5 (confirmed): building a request with `call_id = 0xABCD`,
`method_id = 0x11223344`, `object_id = 0x1122334455667788` and
arguments `(u32 0xDEADBEEF, u16 0xBEEF, u64 0xA1B1C1D1A2B2C2D2)`
produces exactly the 30 bytes
`43 01 CD AB 44 33 22 11 88 77 66 55 44 33 22 11 EF BE AD DE EF BE D2
C2 B2 A2 D1 C1 B1 A1`, in that order. -/
theorem c5_request_framing_bytes :
    buildRequest 0xABCD 0x11223344 0x1122334455667788
      [.vuint 4 0xDEADBEEF, .vuint 2 0xBEEF, .vuint 8 0xA1B1C1D1A2B2C2D2] =
    some [0x43, 0x01, 0xCD, 0xAB,
          0x44, 0x33, 0x22, 0x11,
          0x88, 0x77, 0x66, 0x55, 0x44, 0x33, 0x22, 0x11,
          0xEF, 0xBE, 0xAD, 0xDE,
          0xEF, 0xBE,
          0xD2, 0xC2, 0xB2, 0xA2, 0xD1, 0xC1, 0xB1, 0xA1] := by
  decide

/-- C1 (code_bug): the claim says `object_id()` returns the full
64-bit object identifier stored at offset 8.  The source
(`msg.cc` line 96) instead does `Read<MethodId>(kObjectIdOffset)`,
reading only 4 bytes: on the request built with
`obj = 0x1122334455667788` the observer returns `0x55667788`, the low
32 bits, not the stored 64-bit value. -/
theorem c1_object_id_reads_only_32_bits :
    (buildRequest 0xABCD 0x11223344 0x1122334455667788
      [.vuint 4 0xDEADBEEF, .vuint 2 0xBEEF, .vuint 8 0xA1B1C1D1A2B2C2D2]).bind
        msgObjectId = some 0x55667788 ∧
    (0x55667788 : Nat) ≠ 0x1122334455667788 := by
  decide

/-- C4 (code_bug): the claim says building any request or response
never violates an internal assertion.  `Msg::Write` asserts
`offset + size < data_.size()` (strict), and `PrepareResponsePrefix`
writes the 4-byte type tag at offset 1 into a `4 + rv_size` buffer, so
every response with a 1-byte return value (bool, uint8) trips the
assertion `1 + 4 < 5`; a 4-byte return value passes. -/
theorem c4_one_byte_response_trips_assert :
    buildResponse 0xABCD (.vbool true) = none ∧
    buildResponse 0xABCD (.vuint 1 7) = none ∧
    buildResponse 0xABCD (.vuint 4 0xDEADBEEF) =
      some [0x43, 0x02, 0xCD, 0xAB, 0xEF, 0xBE, 0xAD, 0xDE] := by
  decide

/-- C3 counterexample: a buffer whose first byte is `0x00` (not
`0x43`) and whose second byte is `7` (neither 1 nor 2) is accepted
verbatim by the source's message construction — `codeParse` never
produces a `malformed` result — while the spec's parser reports it
malformed. -/
theorem c3_counterexample_bad_header_accepted :
    codeParse [0x00, 0x07, 0xAA, 0xBB] =
      ParseResult.ok [0x00, 0x07, 0xAA, 0xBB] ∧
    specParse [0x00, 0x07, 0xAA, 0xBB] =
      ParseResult.malformed ParseReason.badPreamble := by
  decide

/-- C3 amended: constructing a `Msg` from a received buffer performs
no validation — every buffer is accepted as-is and no malformed result
exists in the source; the invalid preamble/type bytes are merely
observable through `preamble()` and `type()`, which return the raw
first and second bytes. -/
theorem c3_parse_never_rejects (buf : List Nat) (h : 3 ≤ buf.length) :
    codeParse buf = ParseResult.ok buf ∧
    msgPreamble buf = some (buf.getD 0 0 % 256) ∧
    msgTypeByte buf = some (buf.getD 1 0 % 256) := by
  refine ⟨rfl, ?_, ?_⟩
  · simp only [msgPreamble, msgRead, readLE, readByte, Mem.shift, memOfList]
    rw [if_pos (by omega)]
    norm_num
  · simp only [msgTypeByte, msgRead, readLE, readByte, Mem.shift, memOfList]
    rw [if_pos (by omega)]
    norm_num

theorem c3_parse_never_rejects_witness :
    3 ≤ ([0x00, 0x07, 0xAA, 0xBB] : List Nat).length ∧
    (codeParse [0x00, 0x07, 0xAA, 0xBB] =
        ParseResult.ok [0x00, 0x07, 0xAA, 0xBB] ∧
      msgPreamble [0x00, 0x07, 0xAA, 0xBB] =
        some (([0x00, 0x07, 0xAA, 0xBB] : List Nat).getD 0 0 % 256) ∧
      msgTypeByte [0x00, 0x07, 0xAA, 0xBB] =
        some (([0x00, 0x07, 0xAA, 0xBB] : List Nat).getD 1 0 % 256)) :=
  ⟨by decide, c3_parse_never_rejects [0x00, 0x07, 0xAA, 0xBB] (by decide)⟩

/-- C2 (code_bug): the claim (and the header comment of
`serialize.h`) says any decode with insufficient capacity returns 0
with no observable mutation.  `deserialize<std::string>`
(`serialize.cc` lines 141-149) checks nothing: fed a 14-byte buffer
advertising a 100-byte payload (spec scenario S6), it builds the
string from 90 bytes beyond the buffer and returns 104, not 0. -/
theorem c2_string_decode_ignores_capacity :
    deser Ty.str (memOfList ([100, 0, 0, 0] ++ List.replicate 10 65)) 14 =
      .ok (.vstr (List.replicate 10 65 ++ List.replicate 90 0), 104) ∧
    (104 : Nat) ≠ 0 ∧ 14 < 104 := by
  refine ⟨?_, by decide, by decide⟩
  simp only [deser, memOfList, readByte, readLE, readBytes, Mem.shift]
  norm_num
  decide

/-- C10 counterexample: decoding a `vector<std::string>` from a
10-byte buffer that advertises one string of 100 bytes returns byte
count 108 > 10 — the count returned can exceed `buf_size` (and the
loop's `buf_size -= n_read_bytes` would wrap), because the string
decoder is not bounds-checked. -/
theorem c10_counterexample_count_exceeds_capacity :
    deser (Ty.seq Ty.str)
        (memOfList [1, 0, 0, 0, 100, 0, 0, 0, 65, 65]) 10 =
      .ok (.vseq [.vstr ([65, 65] ++ List.replicate 98 0)], 108) ∧
    ¬(108 ≤ 10) := by
  refine ⟨?_, by decide⟩
  have hloop : deserItems Ty.str 1
      ((memOfList [1, 0, 0, 0, 100, 0, 0, 0, 65, 65]).shift 4) (10 - 4) =
      .ok ([.vstr ([65, 65] ++ List.replicate 98 0)], 104) := by
    rw [show (1 : Nat) = 0 + 1 from rfl, deserItems.eq_2]
    simp only [deser, deserItems, memOfList, readByte, readLE, readBytes,
      Mem.shift]
    norm_num
    decide
  have hn : readLE (memOfList [1, 0, 0, 0, 100, 0, 0, 0, 65, 65]) 4 = 1 := by
    simp [readLE, readByte, memOfList, Mem.shift]
  simp only [deser]
  rw [if_neg (by norm_num), hn, hloop]

/-- C10 amended: for every sequence or map type whose element (and
key/value) types contain no string, a successful decode returns a byte
count that never exceeds `buf_size`, and every element decode consumes
at most the remaining capacity (so the running counter never wraps). -/
theorem c10_strfree_decode_count_bounded (ty : Ty) (m : Mem) (cap : Nat)
    (v : Value) (k : Nat) (hsf : strFree ty = true)
    (h : deser ty m cap = .ok (v, k)) : k ≤ cap :=
  deser_count_le ty hsf m cap v k h

theorem c10_strfree_decode_count_bounded_witness :
    strFree (Ty.seq (Ty.uint 4)) = true ∧
    deser (Ty.seq (Ty.uint 4)) (memOfList [0, 0, 0, 0]) 4 =
      .ok (.vseq [], 4) ∧
    4 ≤ 4 :=
  ⟨by decide,
   by simp [deser, deserItems, memOfList, readByte, readLE, Mem.shift],
   c10_strfree_decode_count_bounded (Ty.seq (Ty.uint 4)) (memOfList [0, 0, 0, 0])
     4 (.vseq []) 4 (by decide)
     (by simp [deser, deserItems, memOfList, readByte, readLE, Mem.shift])⟩

/-- A string decode whose 4-byte prefix reads zero yields the empty
string and count 4. -/
theorem c6_str_decode_zero_prefix (m : Mem) (cap : Nat) (h4 : ¬(cap < 4))
    (hread : readLE m 4 = 0) : deser Ty.str m cap = .ok (.vstr [], 4) := by
  simp only [deser]
  rw [if_neg h4, hread]
  simp only [readBytes_zero]

/-- A string's serialized size is at least its 4-byte prefix. -/
theorem c6_sersize_vstr_ge (s : List Nat) : ¬(sersize (.vstr s) < 4) := by
  simp [sersize]

/-- The length prefix the string encoder wrote reads back as the byte
length reduced modulo `2^32`. -/
theorem c6_vstr_prefix_read (s : List Nat) :
    readLE (memOfList (serFlat (.vstr s))) 4 = s.length % 2 ^ 32 := by
  have hag : agrees (memOfList (serFlat (.vstr s)))
      (leBytes 4 s.length ++ s.map (· % 256)) := by
    have hg := agrees_memOfList (serFlat (.vstr s))
    simpa [serFlat] using hg
  rw [readLE_agrees_front hag]
  norm_num

/-- C6 counterexample: round-trip fails for a string of `2^32` bytes.
The encoder succeeds (returning the full serialized size), but the
4-byte length prefix it wrote is `2^32 % 2^32 = 0`, so decoding the
encoder's own output yields the empty string, not the original
value. -/
theorem c6_counterexample_huge_string_roundtrip_fails :
    ser (.vstr (List.replicate (2 ^ 32) 65))
        (sersize (.vstr (List.replicate (2 ^ 32) 65))) =
      some (serFlat (.vstr (List.replicate (2 ^ 32) 65))) ∧
    deser Ty.str (memOfList (serFlat (.vstr (List.replicate (2 ^ 32) 65))))
        (sersize (.vstr (List.replicate (2 ^ 32) 65))) =
      .ok (.vstr [], 4) ∧
    Value.vstr [] ≠ Value.vstr (List.replicate (2 ^ 32) 65) := by
  refine ⟨ser_eq_of_le _ _ le_rfl, ?_, ?_⟩
  · refine c6_str_decode_zero_prefix _ _ (c6_sersize_vstr_ge _) ?_
    rw [c6_vstr_prefix_read (List.replicate (2 ^ 32) 65)]
    rw [List.length_replicate]
    norm_num
  · intro h
    injection h with hs
    have hlen := congrArg List.length hs
    simp only [List.length_nil, List.length_replicate] at hlen
    exact absurd hlen (by norm_num)

/-- C6 amended (corrected): for every well-formed value of a supported
type all of whose strings and containers are shorter than `2^32`,
deserializing the bytes produced by `serialize` yields the value back,
with `deserialize` consuming exactly the bytes `serialize` wrote. -/
theorem c6_roundtrip_small (ty : Ty) (v : Value) (hwf : wfV ty v = true)
    (hsm : small v = true) :
    ∃ bs, ser v (sersize v) = some bs ∧
      deser ty (memOfList bs) (sersize v) = .ok (v, sersize v) :=
  ⟨serFlat v, ser_eq_of_le v (sersize v) le_rfl,
    deser_serFlat v ty hwf hsm (memOfList (serFlat v)) (sersize v)
      (agrees_memOfList (serFlat v)) le_rfl⟩

theorem c6_roundtrip_small_witness :
    wfV (.map .str (.sint 4))
        (.vmap [(.vstr [97], .vsint 4 5), (.vstr [98], .vsint 4 10)]) =
      true ∧
    small (.vmap [(.vstr [97], .vsint 4 5), (.vstr [98], .vsint 4 10)]) =
      true ∧
    ∃ bs,
      ser (.vmap [(.vstr [97], .vsint 4 5), (.vstr [98], .vsint 4 10)])
          (sersize
            (.vmap [(.vstr [97], .vsint 4 5), (.vstr [98], .vsint 4 10)])) =
        some bs ∧
      deser (.map .str (.sint 4)) (memOfList bs)
          (sersize
            (.vmap [(.vstr [97], .vsint 4 5), (.vstr [98], .vsint 4 10)])) =
        .ok (.vmap [(.vstr [97], .vsint 4 5), (.vstr [98], .vsint 4 10)],
          sersize
            (.vmap [(.vstr [97], .vsint 4 5), (.vstr [98], .vsint 4 10)])) :=
  ⟨by decide, by decide,
    c6_roundtrip_small (.map .str (.sint 4))
      (.vmap [(.vstr [97], .vsint 4 5), (.vstr [98], .vsint 4 10)])
      (by decide) (by decide)⟩

/-- C7 (confirmed): for every value of the supported universe,
`serialize(v, buf, serialized_size(v))` on a buffer of exactly
`serialized_size(v)` bytes succeeds, writes exactly that many bytes,
and returns `serialized_size(v)`. -/
theorem c7_size_oracle_exact (v : Value) :
    ser v (sersize v) = some (serFlat v) ∧
    (serFlat v).length = sersize v :=
  ⟨ser_eq_of_le v (sersize v) le_rfl, serFlat_length v⟩

/-- C8 (confirmed): the boolean codec writes a single byte, `1` for
true and `0` for false; on decode, a zero byte yields `false` and
every non-zero byte — not only `1` — yields `true`. -/
theorem c8_bool_codec (m : Mem) (cap : Nat) (h : 1 ≤ cap) :
    sersize (.vbool true) = 1 ∧ sersize (.vbool false) = 1 ∧
    ser (.vbool true) cap = some [1] ∧
    ser (.vbool false) cap = some [0] ∧
    (m 0 % 256 ≠ 0 → deser Ty.bool m cap = .ok (.vbool true, 1)) ∧
    (m 0 % 256 = 0 → deser Ty.bool m cap = .ok (.vbool false, 1)) := by
  refine ⟨rfl, rfl, ?_, ?_, ?_, ?_⟩
  · simp only [ser]
    rw [if_neg (by omega)]
    norm_num
  · simp only [ser]
    rw [if_neg (by omega)]
    norm_num
  · intro hx
    simp only [deser, readByte]
    rw [if_neg (by omega)]
    simp [hx]
  · intro hx
    simp only [deser, readByte]
    rw [if_neg (by omega)]
    simp [hx]

theorem c8_bool_codec_witness :
    1 ≤ 1 ∧
    (sersize (.vbool true) = 1 ∧ sersize (.vbool false) = 1 ∧
      ser (.vbool true) 1 = some [1] ∧
      ser (.vbool false) 1 = some [0] ∧
      ((fun _ => 2 : Mem) 0 % 256 ≠ 0 →
        deser Ty.bool (fun _ => 2) 1 = .ok (.vbool true, 1)) ∧
      ((fun _ => 2 : Mem) 0 % 256 = 0 →
        deser Ty.bool (fun _ => 2) 1 = .ok (.vbool false, 1))) :=
  ⟨by decide, c8_bool_codec (fun _ => 2) 1 (by decide)⟩

/-- `leBytes` only depends on the value modulo `256 ^ w`. -/
theorem leBytes_mod (w n : Nat) : leBytes w (n % 256 ^ w) = leBytes w n := by
  induction w generalizing n with
  | zero => rfl
  | succ w ih =>
    have hp : (256 : Nat) ^ (w + 1) = 256 * 256 ^ w := by
      rw [pow_succ']
    have hm : n % (256 * 256 ^ w) = n % 256 + 256 * (n / 256 % 256 ^ w) :=
      Nat.mod_mul
    rw [hp, hm]
    simp only [leBytes]
    have h1 : (n % 256 + 256 * (n / 256 % 256 ^ w)) % 256 = n % 256 := by
      omega
    have h2 : (n % 256 + 256 * (n / 256 % 256 ^ w)) / 256 =
        n / 256 % 256 ^ w := by
      omega
    rw [h1, h2, ih]

/-- C9 (confirmed): for a string whose byte length does not fit in 32
bits, `serialize` succeeds — returning the full
`serialized_size = 4 + length` after writing that many bytes — while
the 4-byte length prefix it wrote holds only `length % 2^32`.  The
narrowing is silent. -/
theorem c9_string_length_prefix_narrows (s : List Nat)
    (h : 2 ^ 32 ≤ s.length) :
    sersize (.vstr s) = 4 + s.length ∧
    ser (.vstr s) (sersize (.vstr s)) = some (serFlat (.vstr s)) ∧
    (serFlat (.vstr s)).length = sersize (.vstr s) ∧
    (serFlat (.vstr s)).take 4 = leBytes 4 (s.length % 2 ^ 32) ∧
    readLE (memOfList (serFlat (.vstr s))) 4 = s.length % 2 ^ 32 := by
  refine ⟨rfl, ser_eq_of_le _ _ le_rfl, serFlat_length _, ?_, ?_⟩
  · simp only [serFlat]
    rw [List.take_left' (leBytes_length 4 s.length)]
    rw [show (2 ^ 32 : Nat) = 256 ^ 4 by norm_num]
    exact (leBytes_mod 4 s.length).symm
  · have hag : agrees (memOfList (serFlat (.vstr s)))
        (leBytes 4 s.length ++ s.map (· % 256)) := by
      have hg := agrees_memOfList (serFlat (.vstr s))
      simpa [serFlat] using hg
    rw [readLE_agrees_front hag]
    norm_num

theorem c9_string_length_prefix_narrows_witness :
    2 ^ 32 ≤ (List.replicate (2 ^ 32) (0 : Nat)).length ∧
    (sersize (.vstr (List.replicate (2 ^ 32) (0 : Nat))) =
        4 + (List.replicate (2 ^ 32) (0 : Nat)).length ∧
      ser (.vstr (List.replicate (2 ^ 32) (0 : Nat)))
          (sersize (.vstr (List.replicate (2 ^ 32) (0 : Nat)))) =
        some (serFlat (.vstr (List.replicate (2 ^ 32) (0 : Nat)))) ∧
      (serFlat (.vstr (List.replicate (2 ^ 32) (0 : Nat)))).length =
        sersize (.vstr (List.replicate (2 ^ 32) (0 : Nat))) ∧
      (serFlat (.vstr (List.replicate (2 ^ 32) (0 : Nat)))).take 4 =
        leBytes 4 ((List.replicate (2 ^ 32) (0 : Nat)).length % 2 ^ 32) ∧
      readLE (memOfList (serFlat (.vstr (List.replicate (2 ^ 32) (0 : Nat)))))
          4 =
        (List.replicate (2 ^ 32) (0 : Nat)).length % 2 ^ 32) :=
  ⟨by simp only [List.length_replicate, le_refl],
    c9_string_length_prefix_narrows (List.replicate (2 ^ 32) 0)
      (by simp only [List.length_replicate, le_refl])⟩

end Cipc
